import Mathlib

/-!
# SkillBridge — verification of the scoring/analysis services

Shallow embedding of the pure computational core of the SkillBridge backend:

* `career/services.py` — `SkillGapAnalyzer.analyze_user_for_role`,
  `RoadmapGenerator.generate_roadmap`
* `analytics/models.py` — `SkillCombination.calculate_combinations`
* `users/services.py` + `users/career_discovery.py` —
  `CareerDiscoveryService.calculate_role_scores`
* `learning/models.py` — `RoadmapItem.mark_completed`

Database rows are modelled as Lean structures, querysets as lists, and the
Django ORM state touched by an operation is passed explicitly.  Python float
arithmetic on the small scores involved is modelled with `ℚ` (all operations
used are exact divisions and products of small integers).
-/

namespace SkillBridge

/-! ## career/services.py — SkillGapAnalyzer -/

/-- One `RoleRequiredSkill` row joined with its `Skill`: the analyzer reads
`skill_id`, `importance`, `minimum_level` and (through the FK) the skill
name. -/
structure RoleRequiredSkill where
  skillId : ℕ
  importance : String
  minimumLevel : Option ℕ
  skillName : String
deriving DecidableEq, Repr

/-- `required_skill_ids = set(required_skills.values_list('skill_id', flat=True))` -/
def requiredSkillIds (reqs : List RoleRequiredSkill) : Finset ℕ :=
  (reqs.map RoleRequiredSkill.skillId).toFinset

/-- `missing_skill_ids = required_skill_ids - user_skills` -/
def missingSkillIds (userSkills : Finset ℕ) (reqs : List RoleRequiredSkill) : Finset ℕ :=
  requiredSkillIds reqs \ userSkills

/-- `match_percentage = (len(matching_skills) / len(required_skill_ids)) * 100`
when the required set is non-empty, else `0`. -/
def matchPercentage (userSkills : Finset ℕ) (reqs : List RoleRequiredSkill) : ℚ :=
  if 0 < (requiredSkillIds reqs).card then
    ((userSkills ∩ requiredSkillIds reqs).card : ℚ) / ((requiredSkillIds reqs).card : ℚ) * 100
  else 0

/-- The readiness-level branch of `analyze_user_for_role`. -/
def readinessLevel (mp : ℚ) : String :=
  if 80 ≤ mp then "job_ready"
  else if 50 ≤ mp then "partially_ready"
  else "not_ready"

/-- The readiness-score branch of `analyze_user_for_role`
(`0.8 = 4/5`, `0.6 = 3/5`). -/
def readinessScore (mp : ℚ) : ℚ :=
  if 80 ≤ mp then mp
  else if 50 ≤ mp then mp * (4 / 5)
  else mp * (3 / 5)

/-- Weeks contributed by one missing required skill, by importance. -/
def importanceWeeks (importance : String) : ℕ :=
  if importance = "critical" then 4
  else if importance = "important" then 2
  else 1

/-- The `estimated_weeks` accumulation loop over `required_skills`. -/
def estimatedWeeks (userSkills : Finset ℕ) (reqs : List RoleRequiredSkill) : ℕ :=
  reqs.foldl
    (fun acc r =>
      if r.skillId ∈ missingSkillIds userSkills reqs then acc + importanceWeeks r.importance
      else acc)
    0

/-- Priority assigned to a missing skill from the requirement's importance. -/
def importancePriority (importance : String) : String :=
  if importance = "critical" then "high"
  else if importance = "important" then "medium"
  else "low"

/-- Learning weeks assigned to a missing skill from its priority. -/
def priorityWeeks (priority : String) : ℕ :=
  if priority = "high" then 4
  else if priority = "medium" then 2
  else 1

/-- One `MissingSkill` row (joined with its skill's name, used for
ordering in `generate_roadmap`). -/
structure MissingSkill where
  skillId : ℕ
  skillName : String
  requiredLevel : Option ℕ
  currentLevel : Option ℕ
  priority : String
  estimatedLearningWeeks : ℕ
deriving DecidableEq, Repr

/-- The `MissingSkill.objects.create` loop of `analyze_user_for_role`:
one row per required skill in `missing_skill_ids`, in queryset order. -/
def buildMissingSkills (userSkills : Finset ℕ) (reqs : List RoleRequiredSkill) :
    List MissingSkill :=
  reqs.filterMap fun r =>
    if r.skillId ∈ missingSkillIds userSkills reqs then
      some
        { skillId := r.skillId
          skillName := r.skillName
          requiredLevel := r.minimumLevel
          currentLevel := none
          priority := importancePriority r.importance
          estimatedLearningWeeks := priorityWeeks (importancePriority r.importance) }
    else none

/-- The dict returned by `analyze_user_for_role` (the upserted
`SkillGapAnalysis` / `UserRecommendedRole` fields it reports). -/
structure GapResult where
  matchPercentage : ℚ
  readinessLevel : String
  readinessScore : ℚ
  matchingSkillsCount : ℕ
  missingSkillsCount : ℕ
  estimatedLearningWeeks : ℕ
deriving DecidableEq, Repr

/-- Pure result part of `analyze_user_for_role`. -/
def analyzeResult (userSkills : Finset ℕ) (reqs : List RoleRequiredSkill) : GapResult :=
  { matchPercentage := matchPercentage userSkills reqs
    readinessLevel := readinessLevel (matchPercentage userSkills reqs)
    readinessScore := readinessScore (matchPercentage userSkills reqs)
    matchingSkillsCount := (userSkills ∩ requiredSkillIds reqs).card
    missingSkillsCount := (missingSkillIds userSkills reqs).card
    estimatedLearningWeeks := estimatedWeeks userSkills reqs }

/-- `analyze_user_for_role` with the `MissingSkill` table for this
`(user, role)` passed as state: old rows are deleted
(`gap_analysis.missing_skills.all().delete()`) and rebuilt. -/
def analyze_user_for_role (userSkills : Finset ℕ) (reqs : List RoleRequiredSkill)
    (_oldMissing : List MissingSkill) : GapResult × List MissingSkill :=
  (analyzeResult userSkills reqs, buildMissingSkills userSkills reqs)

/-! ## career/services.py — RoadmapGenerator

`generate_roadmap` orders the missing skills with
`order_by('-priority', 'skill__name')`.  `priority` is a `CharField`
holding `'high' | 'medium' | 'low'`, so Django compares the *strings*:
descending lexicographic on `priority`, ascending on `skill__name`. -/

/-- Lexicographic code-point comparison of character lists — the string
order Django's `ORDER BY` applies to these ASCII column values. -/
def charListLt : List Char → List Char → Bool
  | [], [] => false
  | [], _ :: _ => true
  | _ :: _, [] => false
  | a :: as, b :: bs =>
    if a.toNat < b.toNat then true
    else if b.toNat < a.toNat then false
    else charListLt as bs

/-- Lexicographic code-point comparison of strings. -/
def strLt (a b : String) : Bool :=
  charListLt a.data b.data

/-- Django's `order_by('-priority', 'skill__name')` comparison on
`MissingSkill` rows: string-descending on `priority`, then
string-ascending on the skill name. -/
def missingSkillLE (a b : MissingSkill) : Bool :=
  if a.priority = b.priority then !(strLt b.skillName a.skillName)
  else strLt b.priority a.priority

/-- Insertion step of the sort used to model the ordered queryset. -/
def insertMissing (x : MissingSkill) : List MissingSkill → List MissingSkill
  | [] => [x]
  | y :: ys => if missingSkillLE x y then x :: y :: ys else y :: insertMissing x ys

/-- The ordered queryset
`gap_analysis_obj.missing_skills.all().order_by('-priority', 'skill__name')`. -/
def sortMissing (l : List MissingSkill) : List MissingSkill :=
  l.foldr insertMissing []

/-- One `RoadmapItem` row as created by `generate_roadmap`. -/
structure RoadmapItemRow where
  skillId : ℕ
  skillName : String
  sequenceOrder : ℕ
  status : String
  priority : String
  estimatedDurationWeeks : ℕ
deriving DecidableEq, Repr

/-- The item-creation loop of `generate_roadmap`: one item per missing
skill in the ordered queryset, `sequence_order` counting from 1. -/
def generate_roadmap_items (userSkills : Finset ℕ) (reqs : List RoleRequiredSkill) :
    List RoadmapItemRow :=
  let missing := sortMissing (buildMissingSkills userSkills reqs)
  missing.enum.map fun p =>
    { skillId := p.2.skillId
      skillName := p.2.skillName
      sequenceOrder := p.1 + 1
      status := "pending"
      priority := p.2.priority
      estimatedDurationWeeks := p.2.estimatedLearningWeeks }

/-! ## analytics/models.py — SkillCombination.calculate_combinations -/

/-- A `JobPosting` together with the `skill_id`s of its `job_skills` rows. -/
structure JobPosting where
  isActive : Bool
  skillIds : List ℕ
deriving DecidableEq, Repr

/-- A persisted `SkillCombination` row. -/
structure SkillCombinationRow where
  skill1 : ℕ
  skill2 : ℕ
  coOccurrenceCount : ℕ
  correlationScore : ℚ
deriving DecidableEq, Repr

/-- The nested `for i … for j in range(i+1, …)` loop over one job's skill
list, producing normalized `(min, max)` pairs in iteration order. -/
def jobPairs : List ℕ → List (ℕ × ℕ)
  | [] => []
  | x :: rest => (rest.map fun y => (min x y, max x y)) ++ jobPairs rest

/-- `combinations[key] = combinations.get(key, 0) + 1` on an
insertion-ordered dict modelled as an association list. -/
def bumpPair : List ((ℕ × ℕ) × ℕ) → ℕ × ℕ → List ((ℕ × ℕ) × ℕ)
  | [], k => [(k, 1)]
  | (k', c) :: rest, k =>
    if k' = k then (k', c + 1) :: rest else (k', c) :: bumpPair rest k

/-- The `combinations` dict after the loop over all active job postings. -/
def combinationCounts (jobs : List JobPosting) : List ((ℕ × ℕ) × ℕ) :=
  (jobs.filter JobPosting.isActive).foldl
    (fun m job => (jobPairs job.skillIds).foldl bumpPair m) []

/-- `JobSkill.objects.filter(skill=s).count()` — counts job-skill links of
ALL job postings (the queryset is not restricted to active jobs). -/
def jobSkillRefCount (jobs : List JobPosting) (s : ℕ) : ℕ :=
  (jobs.map fun j => j.skillIds.count s).sum

/-- The record-creation loop of `calculate_combinations`: keep keys with
count ≥ 2 and attach the Jaccard `correlation_score`. -/
def calculate_combinations (jobs : List JobPosting) : List SkillCombinationRow :=
  (combinationCounts jobs).filterMap fun kc =>
    if 2 ≤ kc.2 then
      some
        { skill1 := kc.1.1
          skill2 := kc.1.2
          coOccurrenceCount := kc.2
          correlationScore :=
            if 0 < jobSkillRefCount jobs kc.1.1 ∧ 0 < jobSkillRefCount jobs kc.1.2 then
              (kc.2 : ℚ) /
                ((jobSkillRefCount jobs kc.1.1 : ℚ) + (jobSkillRefCount jobs kc.1.2 : ℚ) -
                  (kc.2 : ℚ))
            else 0 }
    else none

/-- The row `calculate_combinations` creates for a dict entry
`(key, count)` (abbreviation used by the proofs). -/
def mkCombinationRow (jobs : List JobPosting) (k : ℕ × ℕ) (c : ℕ) : SkillCombinationRow :=
  { skill1 := k.1
    skill2 := k.2
    coOccurrenceCount := c
    correlationScore :=
      if 0 < jobSkillRefCount jobs k.1 ∧ 0 < jobSkillRefCount jobs k.2 then
        (c : ℚ) /
          ((jobSkillRefCount jobs k.1 : ℚ) + (jobSkillRefCount jobs k.2 : ℚ) - (c : ℚ))
      else 0 }

/-- The analytics tables touched by `calculate_combinations`. -/
structure AnalyticsDB where
  jobs : List JobPosting
  combinations : List SkillCombinationRow
deriving DecidableEq, Repr

/-- `calculate_combinations` as a state transformer: `cls.objects.all().delete()`
then rebuild from the current job data; returns `created_count`. -/
def runCalculateCombinations (db : AnalyticsDB) : AnalyticsDB × ℕ :=
  let rows := calculate_combinations db.jobs
  ({ db with combinations := rows }, rows.length)

/-- Number of active job postings listing both skills — the spec-side
reading of `co_occurrence_count`. -/
def activeJobsWithBoth (jobs : List JobPosting) (a b : ℕ) : ℕ :=
  ((jobs.filter JobPosting.isActive).filter fun j =>
    j.skillIds.contains a && j.skillIds.contains b).length

/-- Value stored in the pair dict for a key (`combinations.get(key, 0)`). -/
def pairCountIn : List ((ℕ × ℕ) × ℕ) → ℕ × ℕ → ℕ
  | [], _ => 0
  | (k', c) :: rest, k => if k' = k then c else pairCountIn rest k

/-- Keys of the pair dict, in insertion order. -/
def pairKeys (m : List ((ℕ × ℕ) × ℕ)) : List (ℕ × ℕ) :=
  m.map Prod.fst

/-- Total number of times a normalized pair is generated while looping
over the active job postings. -/
def pairOccurrences (jobs : List JobPosting) (k : ℕ × ℕ) : ℕ :=
  ((jobs.filter JobPosting.isActive).map fun j => (jobPairs j.skillIds).count k).sum

/-! ## users/career_discovery.py — static quiz data

Only the fields the scoring code reads are embedded: question `id`,
option `value`, and the optional `related_roles` / `boosts` lists
(`none` models absence of the key in the Python dict). -/

/-- One option of a career-discovery question. -/
structure QuizOption where
  value : String
  relatedRoles : Option (List String)
  boosts : Option (List String)
deriving DecidableEq, Repr

/-- One career-discovery question. -/
structure QuizQuestion where
  id : String
  options : List QuizOption
deriving DecidableEq, Repr

/-- `CAREER_DISCOVERY_QUESTIONS` from `users/career_discovery.py`. -/
def CAREER_DISCOVERY_QUESTIONS : List QuizQuestion :=
  [⟨"knowledge_check",
    [⟨"complete_beginner", none, none⟩, ⟨"some_knowledge", none, none⟩,
     ⟨"experienced", none, none⟩]⟩,
   ⟨"primary_interest",
    [⟨"create_mobile_apps", some ["Mobile Developer", "iOS Developer", "Android Developer"], none⟩,
     ⟨"design_interfaces", some ["UI/UX Designer", "Product Designer", "Frontend Developer"], none⟩,
     ⟨"build_websites", some ["Frontend Developer", "Full Stack Developer", "Web Developer"], none⟩,
     ⟨"work_with_data", some ["Data Analyst", "Data Scientist", "Business Intelligence Analyst"], none⟩,
     ⟨"backend_systems", some ["Backend Developer", "DevOps Engineer", "System Administrator"], none⟩,
     ⟨"secure_systems", some ["Cybersecurity Specialist", "Penetration Tester", "Security Analyst"], none⟩,
     ⟨"test_quality", some ["QA Engineer", "Test Automation Engineer", "QA Analyst"], none⟩,
     ⟨"ai_ml", some ["Machine Learning Engineer", "AI Specialist", "Data Scientist"], none⟩]⟩,
   ⟨"work_style",
    [⟨"alone", none, some ["Backend Developer", "DevOps Engineer", "Data Scientist"]⟩,
     ⟨"team", none, some ["Frontend Developer", "Full Stack Developer", "Product Manager"]⟩,
     ⟨"both", none, some []⟩]⟩,
   ⟨"problem_solving",
    [⟨"logical_structured", none, some ["Backend Developer", "Data Scientist", "DevOps Engineer"]⟩,
     ⟨"creative_visual", none, some ["UI/UX Designer", "Frontend Developer", "Mobile Developer"]⟩,
     ⟨"investigative", none, some ["QA Engineer", "Cybersecurity Specialist", "Data Analyst"]⟩]⟩,
   ⟨"math_comfort",
    [⟨"love_math", none, some ["Data Scientist", "Machine Learning Engineer", "Backend Developer"]⟩,
     ⟨"okay_math", none, some []⟩,
     ⟨"avoid_math", none, some ["UI/UX Designer", "Frontend Developer", "QA Engineer"]⟩]⟩,
   ⟨"learning_style",
    [⟨"hands_on", none, none⟩, ⟨"theory_first", none, none⟩, ⟨"visual", none, none⟩,
     ⟨"mixed", none, none⟩]⟩,
   ⟨"work_environment",
    [⟨"startup", none, some ["Full Stack Developer", "Mobile Developer", "DevOps Engineer"]⟩,
     ⟨"corporate", none, some ["Backend Developer", "Data Analyst", "QA Engineer"]⟩,
     ⟨"freelance", none, some ["Frontend Developer", "UI/UX Designer", "Mobile Developer"]⟩,
     ⟨"any", none, some []⟩]⟩,
   ⟨"patience_detail",
    [⟨"patient_detail", none, some ["QA Engineer", "Backend Developer", "Data Analyst"]⟩,
     ⟨"fast_results", none, some ["Frontend Developer", "Mobile Developer", "UI/UX Designer"]⟩,
     ⟨"balanced", none, some ["Full Stack Developer", "DevOps Engineer"]⟩]⟩]

/-- `ROLE_SCORING_WEIGHTS` from `users/career_discovery.py`. -/
def ROLE_SCORING_WEIGHTS : List (String × ℕ) :=
  [("primary_interest", 50), ("problem_solving", 20), ("work_style", 10),
   ("math_comfort", 10), ("learning_style", 5), ("work_environment", 3),
   ("patience_detail", 2)]

/-- `ROLE_SCORING_WEIGHTS.get(question_id, 1)`. -/
def weightFor (qid : String) : ℕ :=
  ((ROLE_SCORING_WEIGHTS.find? fun p => p.1 == qid).map Prod.snd).getD 1

/-! ## users/services.py — CareerDiscoveryService -/

/-- `get_question_by_id`: first question whose `id` matches, else `None`. -/
def get_question_by_id (qid : String) : Option QuizQuestion :=
  CAREER_DISCOVERY_QUESTIONS.find? fun q => q.id == qid

/-- Score held for a role in the accumulator (`defaultdict(int)` default 0). -/
def roleScoreIn : List (String × ℚ) → String → ℚ
  | [], _ => 0
  | (r, s) :: rest, role => if r = role then s else roleScoreIn rest role

/-- Role keys of the accumulator, in insertion order. -/
def roleKeys (m : List (String × ℚ)) : List String :=
  m.map Prod.fst

/-- `role_scores[role] += v` on a `defaultdict(int)` modelled as an
insertion-ordered association list. -/
def bumpRole (m : List (String × ℚ)) (role : String) (v : ℚ) : List (String × ℚ) :=
  match m with
  | [] => [(role, v)]
  | (r, s) :: rest =>
    if r = role then (r, s + v) :: rest else (r, s) :: bumpRole rest role v

/-- `for role in roles: role_scores[role] += v`. -/
def addRoleScores (m : List (String × ℚ)) (roles : List String) (v : ℚ) :
    List (String × ℚ) :=
  roles.foldl (fun acc r => bumpRole acc r v) m

/-- The body of the `for question_id, answer_value in responses.items()` loop
of `calculate_role_scores`. -/
def processResponse (m : List (String × ℚ)) (e : String × String) : List (String × ℚ) :=
  match get_question_by_id e.1 with
  | none => m
  | some q =>
    match q.options.find? (fun o => o.value == e.2) with
    | none => m
    | some opt =>
      let w : ℚ := (weightFor e.1 : ℚ)
      let m1 :=
        match opt.relatedRoles with
        | some roles => addRoleScores m roles w
        | none => m
      match opt.boosts with
      | some roles => addRoleScores m1 roles (w / 2)
      | none => m1

/-- Stable descending insertion by score: the earlier entry stays first
among equal scores (Python's `sorted` is stable). -/
def insertByScoreDesc (x : String × ℚ) : List (String × ℚ) → List (String × ℚ)
  | [] => [x]
  | y :: ys => if x.2 < y.2 then y :: insertByScoreDesc x ys else x :: y :: ys

/-- `calculate_role_scores`: accumulate scores over responses, then
`sorted(role_scores.items(), key=lambda x: x[1], reverse=True)`. -/
def calculate_role_scores (responses : List (String × String)) : List (String × ℚ) :=
  (responses.foldl processResponse []).foldr insertByScoreDesc []

/-- Score a single recognized option contributes to a role:
full weight per occurrence in `related_roles`, half weight per occurrence
in `boosts`. -/
def optionContribution (qid : String) (opt : QuizOption) (role : String) : ℚ :=
  (weightFor qid : ℚ) * ((opt.relatedRoles.getD []).count role : ℚ) +
    ((weightFor qid : ℚ) / 2) * ((opt.boosts.getD []).count role : ℚ)

/-- Score a single response entry contributes to a role (0 for an unknown
question id or an unmatched answer value). -/
def responseContribution (e : String × String) (role : String) : ℚ :=
  match get_question_by_id e.1 with
  | none => 0
  | some q =>
    match q.options.find? (fun o => o.value == e.2) with
    | none => 0
    | some opt => optionContribution e.1 opt role

/-- Total score a responses list contributes to a role. -/
def totalScore (responses : List (String × String)) (role : String) : ℚ :=
  (responses.map fun e => responseContribution e role).sum

/-- A response entry is recognized when its question id resolves and the
answer value matches one of the question's options. -/
def recognizedResponse (e : String × String) : Bool :=
  match get_question_by_id e.1 with
  | none => false
  | some q => (q.options.find? fun o => o.value == e.2).isSome

/-! ## learning/models.py — RoadmapItem.mark_completed -/

/-- One `UserSkill` row (fields `mark_completed` touches). -/
structure UserSkillRow where
  userId : ℕ
  skillId : ℕ
  level : Option ℕ
  status : String
  selfAssessed : Bool
deriving DecidableEq, Repr

/-- One `SkillLevel` row. -/
structure SkillLevel where
  id : ℕ
  levelOrder : ℕ
deriving DecidableEq, Repr

/-- A `RoadmapItem` with its roadmap's user (fields `mark_completed` reads). -/
structure LearnerRoadmapItem where
  userId : ℕ
  skillId : ℕ
  status : String
deriving DecidableEq, Repr

/-- `user_skill.mark_as_learned()` on the row fetched by
`UserSkill.objects.get(user=…, skill=…)`: sets `status='learned'` on that
row (level untouched — no `level` argument is passed). -/
def markUserSkillLearned (u s : ℕ) : List UserSkillRow → List UserSkillRow
  | [] => []
  | us :: rest =>
    if us.userId = u ∧ us.skillId = s then { us with status := "learned" } :: rest
    else us :: markUserSkillLearned u s rest

/-- `SkillLevel.objects.filter(level_order=1).first()`. -/
def beginnerLevelId (levels : List SkillLevel) : Option ℕ :=
  (levels.find? fun l => l.levelOrder == 1).map SkillLevel.id

/-- `RoadmapItem.mark_completed`: set the item's status to `completed`,
then mark the user's `UserSkill` for this skill as `learned`, creating it
(at the level with `level_order=1`, `self_assessed=True`) when missing. -/
def mark_completed (item : LearnerRoadmapItem) (userSkills : List UserSkillRow)
    (levels : List SkillLevel) : LearnerRoadmapItem × List UserSkillRow :=
  let item' := { item with status := "completed" }
  match userSkills.find? (fun us => us.userId == item.userId && us.skillId == item.skillId) with
  | some _ => (item', markUserSkillLearned item.userId item.skillId userSkills)
  | none =>
    (item',
      userSkills ++
        [{ userId := item.userId
           skillId := item.skillId
           level := beginnerLevelId levels
           status := "learned"
           selfAssessed := true }])

/-! ## Lemmas and theorems -/

/-- A fold that conditionally accumulates `f r` is the sum of `f` over the
filtered list. -/
theorem foldl_ite_add {α : Type} (p : α → Prop) [DecidablePred p] (f : α → ℕ) :
    ∀ (l : List α) (n : ℕ),
      l.foldl (fun acc r => if p r then acc + f r else acc) n
        = n + ((l.filter fun r => decide (p r)).map f).sum
  | [], n => by simp
  | r :: rest, n => by
    by_cases h : p r <;>
      simp [h, foldl_ite_add p f rest, Nat.add_assoc]

theorem mem_requiredSkillIds_of_mem {reqs : List RoleRequiredSkill}
    {r : RoleRequiredSkill} (hr : r ∈ reqs) : r.skillId ∈ requiredSkillIds reqs := by
  simp only [requiredSkillIds, List.mem_toFinset, List.mem_map]
  exact ⟨r, hr, rfl⟩

/-- C1: `match_percentage` is `|user ∩ required| / |required| × 100` for a
non-empty required set and `0` for an empty one; it always lies in
`[0, 100]`; and for a non-empty required set it is `100` exactly when
every required skill id is among the user's skills.  (For an empty
required set the percentage is `0` even though the inclusion holds
vacuously, which is why the non-emptiness assumption is needed.) -/
theorem match_percentage_spec (us : Finset ℕ) (reqs : List RoleRequiredSkill) :
    ((requiredSkillIds reqs).Nonempty →
        matchPercentage us reqs =
          ((us ∩ requiredSkillIds reqs).card : ℚ) / ((requiredSkillIds reqs).card : ℚ) * 100)
    ∧ (requiredSkillIds reqs = ∅ → matchPercentage us reqs = 0)
    ∧ 0 ≤ matchPercentage us reqs ∧ matchPercentage us reqs ≤ 100
    ∧ ((requiredSkillIds reqs).Nonempty →
        (matchPercentage us reqs = 100 ↔ requiredSkillIds reqs ⊆ us)) := by
  have hsub : us ∩ requiredSkillIds reqs ⊆ requiredSkillIds reqs := Finset.inter_subset_right
  have hcard : (us ∩ requiredSkillIds reqs).card ≤ (requiredSkillIds reqs).card :=
    Finset.card_le_card hsub
  by_cases hpos : 0 < (requiredSkillIds reqs).card
  · have hform : matchPercentage us reqs =
        ((us ∩ requiredSkillIds reqs).card : ℚ) / ((requiredSkillIds reqs).card : ℚ) * 100 := by
      simp [matchPercentage, hpos]
    have hrQ : (0 : ℚ) < ((requiredSkillIds reqs).card : ℚ) := by exact_mod_cast hpos
    refine ⟨fun _ => hform, ?_, ?_, ?_, ?_⟩
    · intro h
      rw [h] at hpos
      simp at hpos
    · rw [hform]
      positivity
    · rw [hform]
      have hdiv : ((us ∩ requiredSkillIds reqs).card : ℚ) / ((requiredSkillIds reqs).card : ℚ) ≤ 1 := by
        rw [div_le_one hrQ]
        exact_mod_cast hcard
      nlinarith
    · intro _
      rw [hform]
      constructor
      · intro h
        have hcards : ((us ∩ requiredSkillIds reqs).card : ℚ) = ((requiredSkillIds reqs).card : ℚ) := by
          field_simp at h
          linarith
        have : (us ∩ requiredSkillIds reqs).card = (requiredSkillIds reqs).card := by
          exact_mod_cast hcards
        have heq : us ∩ requiredSkillIds reqs = requiredSkillIds reqs :=
          Finset.eq_of_subset_of_card_le hsub (le_of_eq this.symm)
        exact Finset.inter_eq_right.mp heq
      · intro h
        have heq : us ∩ requiredSkillIds reqs = requiredSkillIds reqs := by
          rw [Finset.inter_comm]
          rwa [Finset.inter_eq_left]
        rw [heq]
        field_simp
  · have hzero : (requiredSkillIds reqs).card = 0 := Nat.eq_zero_of_not_pos hpos
    have hempty : requiredSkillIds reqs = ∅ := Finset.card_eq_zero.mp hzero
    have hmp : matchPercentage us reqs = 0 := by simp [matchPercentage, hpos]
    refine ⟨fun hne => absurd hempty (Finset.nonempty_iff_ne_empty.mp hne), fun _ => hmp,
      by rw [hmp], by rw [hmp]; norm_num,
      fun hne => absurd hempty (Finset.nonempty_iff_ne_empty.mp hne)⟩

/-- C1 witness: concrete instantiation of `match_percentage_spec`. -/
theorem match_percentage_spec_witness :
    matchPercentage ({1, 2} : Finset ℕ)
      [⟨1, "critical", none, "Python"⟩, ⟨2, "important", none, "SQL"⟩] = 100 :=
  ((match_percentage_spec ({1, 2} : Finset ℕ)
      [⟨1, "critical", none, "Python"⟩, ⟨2, "important", none, "SQL"⟩]).2.2.2.2
    (by decide)).mpr (by decide)

/-- C1 counterexample: with an empty required set both the inclusion
`required ⊆ user_skills` holds (vacuously) and `match_percentage = 0`, so
the unrestricted biconditional `match_percentage = 100 ↔ required ⊆
user_skills` is false. -/
theorem match_percentage_empty_required_cex :
    ¬ (matchPercentage (∅ : Finset ℕ) [] = 100 ↔
        requiredSkillIds [] ⊆ (∅ : Finset ℕ)) := by
  intro h
  have h0 : matchPercentage (∅ : Finset ℕ) [] = 0 := by decide
  have hsub : requiredSkillIds [] ⊆ (∅ : Finset ℕ) := by decide
  have := h.mpr hsub
  rw [h0] at this
  norm_num at this

/-- C2: readiness classification uses inclusive lower bounds: `≥ 80` gives
`job_ready` with score = match%, `50 ≤ · < 80` gives `partially_ready`
with score = match% × 0.8, `< 50` gives `not_ready` with score =
match% × 0.6; and `analyze` applies exactly this classification to the
match percentage it computed. -/
theorem readiness_classification_spec (mp : ℚ) :
    (80 ≤ mp → readinessLevel mp = "job_ready" ∧ readinessScore mp = mp)
    ∧ (50 ≤ mp → mp < 80 →
        readinessLevel mp = "partially_ready" ∧ readinessScore mp = mp * (8 / 10))
    ∧ (mp < 50 → readinessLevel mp = "not_ready" ∧ readinessScore mp = mp * (6 / 10))
    ∧ (∀ (us : Finset ℕ) (reqs : List RoleRequiredSkill),
        (analyzeResult us reqs).readinessLevel = readinessLevel (matchPercentage us reqs)
        ∧ (analyzeResult us reqs).readinessScore = readinessScore (matchPercentage us reqs)) := by
  refine ⟨fun h80 => ?_, fun h50 h80 => ?_, fun h50 => ?_, fun us reqs => ⟨rfl, rfl⟩⟩
  · constructor <;> simp [readinessLevel, readinessScore, h80]
  · have : ¬ 80 ≤ mp := not_le.mpr h80
    refine ⟨by simp [readinessLevel, this, h50], ?_⟩
    simp only [readinessScore, if_neg this, if_pos h50]
    norm_num
  · have h80 : ¬ 80 ≤ mp := by linarith
    have h50' : ¬ 50 ≤ mp := not_le.mpr h50
    refine ⟨by simp [readinessLevel, h80, h50'], ?_⟩
    simp only [readinessScore, if_neg h80, if_neg h50']
    norm_num

/-- C2 witness: the four boundary values from the claim. -/
theorem readiness_classification_spec_witness :
    readinessLevel 80 = "job_ready"
    ∧ readinessLevel (799 / 10) = "partially_ready"
    ∧ readinessLevel 50 = "partially_ready"
    ∧ readinessLevel (499 / 10) = "not_ready" :=
  ⟨((readiness_classification_spec 80).1 (by norm_num)).1,
   ((readiness_classification_spec (799 / 10)).2.1 (by norm_num) (by norm_num)).1,
   ((readiness_classification_spec 50).2.1 (by norm_num) (by norm_num)).1,
   ((readiness_classification_spec (499 / 10)).2.2.1 (by norm_num)).1⟩

/-- C7: `estimated_weeks` is the sum over the missing required skills of
4 weeks for a `critical` skill, 2 for an `important` one and 1 otherwise;
on the spec's example (required Python critical, Django critical, SQL
important, Docker nice_to_have; user knows Python and SQL) it is 5. -/
theorem estimated_weeks_formula (us : Finset ℕ) (reqs : List RoleRequiredSkill) :
    estimatedWeeks us reqs =
      (((reqs.filter fun r => decide (r.skillId ∉ us)).map fun r =>
        if r.importance = "critical" then 4
        else if r.importance = "important" then 2
        else 1).sum)
    ∧ estimatedWeeks ({1, 3} : Finset ℕ)
        [⟨1, "critical", none, "Python"⟩, ⟨2, "critical", none, "Django"⟩,
         ⟨3, "important", none, "SQL"⟩, ⟨4, "nice_to_have", none, "Docker"⟩] = 5 := by
  constructor
  · rw [estimatedWeeks, foldl_ite_add (fun r => r.skillId ∈ missingSkillIds us reqs)
      (fun r => importanceWeeks r.importance) reqs 0]
    have hfc : (reqs.filter fun r => decide (r.skillId ∈ missingSkillIds us reqs))
        = reqs.filter fun r => decide (r.skillId ∉ us) := by
      apply List.filter_congr
      intro r hr
      have hreq : r.skillId ∈ requiredSkillIds reqs := mem_requiredSkillIds_of_mem hr
      by_cases hu : r.skillId ∈ us <;> simp [missingSkillIds, hreq, hu]
    rw [hfc]
    simp [importanceWeeks]
  · decide

/-- C3 (failing input): `generate_roadmap` orders the missing skills with
`order_by('-priority', 'skill__name')` on the `CharField` values, i.e.
descending *lexicographic* order of the strings `'high' | 'medium' | 'low'`.
On the spec's own example (missing Django `high`, Docker `low`) the
low-priority Docker item comes first, and with all three priorities present
the order is `medium, low, high` — not the claimed `high, medium, low`.
`sequence_order` is still assigned densely from 1 in that order. -/
theorem roadmap_priority_order_eval :
    generate_roadmap_items ∅
        [⟨1, "critical", none, "Django"⟩, ⟨2, "nice_to_have", none, "Docker"⟩]
      = [⟨2, "Docker", 1, "pending", "low", 1⟩, ⟨1, "Django", 2, "pending", "high", 4⟩]
    ∧ (sortMissing
        [⟨1, "A", none, none, "high", 4⟩, ⟨2, "B", none, none, "medium", 2⟩,
         ⟨3, "C", none, none, "low", 1⟩]).map MissingSkill.priority
      = ["medium", "low", "high"] := by
  constructor <;> decide

theorem count_skillId_buildMissingSkills (us : Finset ℕ) (reqs : List RoleRequiredSkill)
    (sid : ℕ) :
    ∀ l : List RoleRequiredSkill,
      ((l.filterMap fun r =>
          if r.skillId ∈ missingSkillIds us reqs then
            some
              { skillId := r.skillId
                skillName := r.skillName
                requiredLevel := r.minimumLevel
                currentLevel := none
                priority := importancePriority r.importance
                estimatedLearningWeeks := priorityWeeks (importancePriority r.importance)
                : MissingSkill }
          else none).filter fun m => m.skillId == sid).length
        = if sid ∈ missingSkillIds us reqs then
            (l.map RoleRequiredSkill.skillId).count sid
          else 0
  | [] => by simp
  | r :: rest => by
    have ih := count_skillId_buildMissingSkills us reqs sid rest
    by_cases hm : r.skillId ∈ missingSkillIds us reqs
    · by_cases hs : r.skillId = sid
      · subst hs
        simp [List.filterMap_cons, hm, List.count_cons, ih]
      · have : ¬ (sid = r.skillId) := fun h => hs h.symm
        simp [List.filterMap_cons, hm, hs, List.count_cons, ih, this]
    · by_cases hs : r.skillId = sid
      · subst hs
        simp [List.filterMap_cons, hm, List.count_cons, ih]
      · have : ¬ (sid = r.skillId) := fun h => hs h.symm
        simp [List.filterMap_cons, hm, List.count_cons, ih, this]

/-- C6: with unchanged user skills and role requirements, running
`analyze_user_for_role` a second time returns the same `GapResult` and
leaves the `MissingSkill` table exactly as the first run did — with,
for each skill id, exactly one row when the skill is missing (required
and not known) and none otherwise. -/
theorem analyze_idempotent (us : Finset ℕ) (reqs : List RoleRequiredSkill)
    (oldMissing : List MissingSkill)
    (hnd : (reqs.map RoleRequiredSkill.skillId).Nodup) :
    (analyze_user_for_role us reqs (analyze_user_for_role us reqs oldMissing).2).1
        = (analyze_user_for_role us reqs oldMissing).1
    ∧ (analyze_user_for_role us reqs (analyze_user_for_role us reqs oldMissing).2).2
        = (analyze_user_for_role us reqs oldMissing).2
    ∧ ∀ sid : ℕ,
        (((analyze_user_for_role us reqs oldMissing).2.filter
            fun m => m.skillId == sid).length)
          = if sid ∈ missingSkillIds us reqs then 1 else 0 := by
  refine ⟨rfl, rfl, fun sid => ?_⟩
  have h := count_skillId_buildMissingSkills us reqs sid reqs
  show ((buildMissingSkills us reqs).filter fun m => m.skillId == sid).length = _
  rw [buildMissingSkills, h]
  by_cases hm : sid ∈ missingSkillIds us reqs
  · have hreq : sid ∈ requiredSkillIds reqs := by
      have := Finset.sdiff_subset (s := requiredSkillIds reqs) (t := us)
      exact this hm
    have hmem : sid ∈ reqs.map RoleRequiredSkill.skillId := by
      simpa [requiredSkillIds, List.mem_toFinset] using hreq
    have hc1 : (reqs.map RoleRequiredSkill.skillId).count sid = 1 := by
      have hle := List.nodup_iff_count_le_one.mp hnd sid
      have hge := List.count_pos_iff.mpr hmem
      omega
    simp [hm, hc1]
  · simp [hm]

/-- C6 witness: user knows skill 1, the role needs skills 1 and 2. -/
theorem analyze_idempotent_witness :
    ((analyze_user_for_role ({1} : Finset ℕ)
        [⟨1, "critical", none, "Python"⟩, ⟨2, "critical", none, "Django"⟩] []).2.filter
      fun m => m.skillId == 2).length
      = if 2 ∈ missingSkillIds ({1} : Finset ℕ)
            [⟨1, "critical", none, "Python"⟩, ⟨2, "critical", none, "Django"⟩] then 1
        else 0 :=
  (analyze_idempotent ({1} : Finset ℕ)
      [⟨1, "critical", none, "Python"⟩, ⟨2, "critical", none, "Django"⟩] []
      (by decide)).2.2 2

theorem markUserSkillLearned_mem (u s : ℕ) :
    ∀ l : List UserSkillRow,
      (∃ us ∈ l, us.userId = u ∧ us.skillId = s) →
      ∃ us ∈ markUserSkillLearned u s l,
        us.userId = u ∧ us.skillId = s ∧ us.status = "learned"
  | [], h => by simp at h
  | row :: rest, h => by
    by_cases hrow : row.userId = u ∧ row.skillId = s
    · refine ⟨{ row with status := "learned" }, ?_, hrow.1, hrow.2, rfl⟩
      simp [markUserSkillLearned, hrow]
    · have hrest : ∃ us ∈ rest, us.userId = u ∧ us.skillId = s := by
        rcases h with ⟨us, hmem, hus⟩
        rcases List.mem_cons.mp hmem with heq | hmem'
        · exact absurd (heq ▸ hus) hrow
        · exact ⟨us, hmem', hus⟩
      rcases markUserSkillLearned_mem u s rest hrest with ⟨us, hmem, hus⟩
      refine ⟨us, ?_, hus⟩
      simp [markUserSkillLearned, hrow]
      right
      exact hmem

/-- C9: `mark_completed` sets the item's status to `completed` and leaves a
`UserSkill` for `(roadmap.user, item.skill)` with status `learned` in the
table: the existing row is updated when one exists, and otherwise a new row
is created at the level with `level_order = 1` and `self_assessed = True`. -/
theorem mark_completed_spec (item : LearnerRoadmapItem) (userSkills : List UserSkillRow)
    (levels : List SkillLevel) :
    (mark_completed item userSkills levels).1.status = "completed"
    ∧ (∃ us ∈ (mark_completed item userSkills levels).2,
        us.userId = item.userId ∧ us.skillId = item.skillId ∧ us.status = "learned")
    ∧ ((userSkills.find? fun us =>
          us.userId == item.userId && us.skillId == item.skillId) = none →
        (mark_completed item userSkills levels).2 =
          userSkills ++
            [{ userId := item.userId
               skillId := item.skillId
               level := beginnerLevelId levels
               status := "learned"
               selfAssessed := true }]) := by
  rcases hfind : userSkills.find? fun us =>
      us.userId == item.userId && us.skillId == item.skillId with _ | row
  · refine ⟨by simp [mark_completed, hfind], ?_, fun _ => by simp [mark_completed, hfind]⟩
    have hrow : (⟨item.userId, item.skillId, beginnerLevelId levels, "learned", true⟩ :
        UserSkillRow) ∈ (mark_completed item userSkills levels).2 := by
      simp [mark_completed, hfind]
    exact ⟨_, hrow, rfl, rfl, rfl⟩
  · have hprop := List.find?_some hfind
    have hmem := List.mem_of_find?_eq_some hfind
    simp only [Bool.and_eq_true, beq_iff_eq] at hprop
    refine ⟨by simp [mark_completed, hfind], ?_, fun hnone => by rw [hfind] at hnone; cases hnone⟩
    have hex : ∃ us ∈ userSkills, us.userId = item.userId ∧ us.skillId = item.skillId :=
      ⟨row, hmem, hprop.1, hprop.2⟩
    rcases markUserSkillLearned_mem item.userId item.skillId userSkills hex with ⟨us, hm, hus⟩
    refine ⟨us, ?_, hus⟩
    simp [mark_completed, hfind]
    exact hm

/-- C9 witness: completing an item for a user with no prior `UserSkill`
creates the learned row at the `level_order = 1` level. -/
theorem mark_completed_spec_witness :
    (mark_completed ⟨7, 4, "in_progress"⟩ [⟨7, 9, some 2, "learned", false⟩]
        [⟨11, 1⟩, ⟨12, 2⟩]).2
      = [⟨7, 9, some 2, "learned", false⟩, ⟨7, 4, some 11, "learned", true⟩] := by
  have h := (mark_completed_spec ⟨7, 4, "in_progress"⟩ [⟨7, 9, some 2, "learned", false⟩]
      [⟨11, 1⟩, ⟨12, 2⟩]).2.2 (by decide)
  rw [h]
  decide

theorem roleScoreIn_bumpRole (role role' : String) (v : ℚ) :
    ∀ m : List (String × ℚ),
      roleScoreIn (bumpRole m role v) role'
        = roleScoreIn m role' + if role = role' then v else 0
  | [] => by
    simp only [bumpRole, roleScoreIn]
    by_cases h : role = role' <;> simp [h]
  | (r, s) :: rest => by
    by_cases hr : r = role
    · subst hr
      simp only [bumpRole, if_pos rfl]
      by_cases h : r = role' <;> simp [roleScoreIn, h]
    · have ih := roleScoreIn_bumpRole role role' v rest
      simp only [bumpRole, if_neg hr]
      by_cases h : r = role'
      · have hrole : ¬ (role = role') := fun hh => hr (h.trans hh.symm)
        simp [roleScoreIn, h, hrole]
      · simp [roleScoreIn, h, ih]

theorem roleKeys_bumpRole (role : String) (v : ℚ) :
    ∀ m : List (String × ℚ),
      roleKeys (bumpRole m role v)
        = if role ∈ roleKeys m then roleKeys m else roleKeys m ++ [role]
  | [] => by simp [bumpRole, roleKeys]
  | (r, s) :: rest => by
    have ih := roleKeys_bumpRole role v rest
    by_cases hr : r = role
    · subst hr
      simp [bumpRole, roleKeys]
    · have hne : ¬ (role = r) := fun h => hr h.symm
      have hb : bumpRole ((r, s) :: rest) role v = (r, s) :: bumpRole rest role v := by
        simp [bumpRole, hr]
      simp only [roleKeys] at ih ⊢
      rw [hb, List.map_cons, List.map_cons, ih]
      simp only [List.mem_cons, hne, false_or]
      by_cases hm : role ∈ rest.map Prod.fst
      · simp [hm]
      · simp [hm]

theorem nodup_roleKeys_bumpRole (role : String) (v : ℚ) (m : List (String × ℚ))
    (h : (roleKeys m).Nodup) : (roleKeys (bumpRole m role v)).Nodup := by
  rw [roleKeys_bumpRole]
  by_cases hm : role ∈ roleKeys m
  · simpa [hm] using h
  · simp only [hm, if_false]
    simpa [List.nodup_append] using ⟨h, hm⟩

theorem roleScoreIn_addRoleScores (role : String) (v : ℚ) :
    ∀ (roles : List String) (m : List (String × ℚ)),
      roleScoreIn (addRoleScores m roles v) role
        = roleScoreIn m role + v * roles.count role
  | [], m => by simp [addRoleScores]
  | r :: rest, m => by
    have ih := roleScoreIn_addRoleScores role v rest (bumpRole m r v)
    have hb := roleScoreIn_bumpRole r role v m
    show roleScoreIn (addRoleScores (bumpRole m r v) rest v) role = _
    rw [ih, hb, List.count_cons]
    by_cases h : r = role
    · subst h
      simp
      ring
    · have : ¬ (role = r) := fun hh => h hh.symm
      simp [h, this]

theorem nodup_roleKeys_addRoleScores (v : ℚ) :
    ∀ (roles : List String) (m : List (String × ℚ)),
      (roleKeys m).Nodup → (roleKeys (addRoleScores m roles v)).Nodup
  | [], m, h => h
  | r :: rest, m, h =>
    nodup_roleKeys_addRoleScores v rest (bumpRole m r v) (nodup_roleKeys_bumpRole r v m h)

theorem roleScoreIn_processResponse (m : List (String × ℚ)) (e : String × String)
    (role : String) :
    roleScoreIn (processResponse m e) role
      = roleScoreIn m role + responseContribution e role := by
  rcases hq : get_question_by_id e.1 with _ | q
  · simp [processResponse, responseContribution, hq]
  · rcases hf : q.options.find? (fun o => o.value == e.2) with _ | opt
    · simp [processResponse, responseContribution, hq, hf]
    · rcases hrel : opt.relatedRoles with _ | rel <;>
        rcases hb : opt.boosts with _ | boosts <;>
        simp [processResponse, responseContribution, optionContribution, hq, hf, hrel, hb,
          roleScoreIn_addRoleScores] <;>
        ring

theorem nodup_roleKeys_processResponse (m : List (String × ℚ)) (e : String × String)
    (h : (roleKeys m).Nodup) : (roleKeys (processResponse m e)).Nodup := by
  rcases hq : get_question_by_id e.1 with _ | q
  · simpa [processResponse, hq] using h
  · rcases hf : q.options.find? (fun o => o.value == e.2) with _ | opt
    · simpa [processResponse, hq, hf] using h
    · rcases hrel : opt.relatedRoles with _ | rel <;>
        rcases hb : opt.boosts with _ | boosts <;>
        simp [processResponse, hq, hf, hrel, hb] <;>
        first
        | exact h
        | exact nodup_roleKeys_addRoleScores _ _ _ h
        | exact nodup_roleKeys_addRoleScores _ _ _ (nodup_roleKeys_addRoleScores _ _ _ h)

theorem roleScoreIn_foldl (role : String) :
    ∀ (rs : List (String × String)) (m : List (String × ℚ)),
      roleScoreIn (rs.foldl processResponse m) role
        = roleScoreIn m role + totalScore rs role
  | [], m => by simp [totalScore]
  | e :: rest, m => by
    have ih := roleScoreIn_foldl role rest (processResponse m e)
    show roleScoreIn (rest.foldl processResponse (processResponse m e)) role = _
    rw [ih, roleScoreIn_processResponse]
    simp [totalScore]
    ring

theorem nodup_roleKeys_foldl :
    ∀ (rs : List (String × String)) (m : List (String × ℚ)),
      (roleKeys m).Nodup → (roleKeys (rs.foldl processResponse m)).Nodup
  | [], _, h => h
  | e :: rest, m, h =>
    nodup_roleKeys_foldl rest (processResponse m e) (nodup_roleKeys_processResponse m e h)

theorem entry_eq_roleScoreIn :
    ∀ m : List (String × ℚ), (roleKeys m).Nodup →
      ∀ p ∈ m, p.2 = roleScoreIn m p.1
  | [], _, p, hp => by simp at hp
  | (r, s) :: rest, hnd, p, hp => by
    have hnd' : r ∉ roleKeys rest ∧ (roleKeys rest).Nodup := by
      have : (r :: roleKeys rest).Nodup := by simpa [roleKeys] using hnd
      exact List.nodup_cons.mp this
    have hr : r ∉ roleKeys rest := hnd'.1
    have hndrest : (roleKeys rest).Nodup := hnd'.2
    rcases List.mem_cons.mp hp with heq | hmem
    · subst heq
      simp [roleScoreIn]
    · have hne : r ≠ p.1 := by
        intro h
        apply hr
        rw [h]
        exact List.mem_map.mpr ⟨p, hmem, rfl⟩
      have := entry_eq_roleScoreIn rest hndrest p hmem
      simpa [roleScoreIn, hne] using this

theorem insertByScoreDesc_perm (x : String × ℚ) :
    ∀ l : List (String × ℚ), List.Perm (insertByScoreDesc x l) (x :: l)
  | [] => List.Perm.refl _
  | y :: ys => by
    unfold insertByScoreDesc
    by_cases h : x.2 < y.2
    · simp only [if_pos h]
      exact ((insertByScoreDesc_perm x ys).cons y).trans (List.Perm.swap x y ys)
    · simp only [if_neg h]
      exact List.Perm.refl _

theorem sortByScoreDesc_perm :
    ∀ l : List (String × ℚ), List.Perm (l.foldr insertByScoreDesc []) l
  | [] => List.Perm.refl _
  | e :: rest => by
    show List.Perm (insertByScoreDesc e (rest.foldr insertByScoreDesc [])) (e :: rest)
    exact (insertByScoreDesc_perm e _).trans ((sortByScoreDesc_perm rest).cons e)

theorem pairwise_insertByScoreDesc (x : String × ℚ) :
    ∀ l : List (String × ℚ),
      l.Pairwise (fun a b => b.2 ≤ a.2) →
      (insertByScoreDesc x l).Pairwise (fun a b => b.2 ≤ a.2)
  | [], _ => by simp [insertByScoreDesc]
  | y :: ys, h => by
    rcases List.pairwise_cons.mp h with ⟨hy, hys⟩
    unfold insertByScoreDesc
    by_cases hlt : x.2 < y.2
    · simp only [if_pos hlt]
      refine List.pairwise_cons.mpr ⟨?_, pairwise_insertByScoreDesc x ys hys⟩
      intro b hb
      have hb' : b ∈ x :: ys := (insertByScoreDesc_perm x ys).mem_iff.mp hb
      rcases List.mem_cons.mp hb' with heq | hmem
      · rw [heq]
        exact hlt.le
      · exact hy b hmem
    · simp only [if_neg hlt]
      have hxy : y.2 ≤ x.2 := not_lt.mp hlt
      refine List.pairwise_cons.mpr ⟨?_, h⟩
      intro b hb
      rcases List.mem_cons.mp hb with heq | hmem
      · rw [heq]
        exact hxy
      · exact (hy b hmem).trans hxy

theorem pairwise_sortByScoreDesc :
    ∀ l : List (String × ℚ),
      (l.foldr insertByScoreDesc []).Pairwise (fun a b => b.2 ≤ a.2)
  | [] => by simp
  | e :: rest => pairwise_insertByScoreDesc e _ (pairwise_sortByScoreDesc rest)

/-- C8: every `(role, score)` pair returned by `calculate_role_scores` has
the additive score `Σ` over the responses of (full static weight) × (number
of occurrences of the role in the selected option's `related_roles`) +
(half the static weight) × (occurrences in its `boosts`); the output is
sorted by descending score; and in the static quiz data only
`primary_interest` options carry `related_roles` (with weight 50) while no
`primary_interest` option carries `boosts` — so `related_roles`
contributions come precisely from `primary_interest` at full weight and
`boosts` contributions from the other questions at half weight. -/
theorem calculate_role_scores_spec (responses : List (String × String)) :
    (∀ p ∈ calculate_role_scores responses, p.2 = totalScore responses p.1)
    ∧ (calculate_role_scores responses).Pairwise (fun a b => b.2 ≤ a.2)
    ∧ (∀ q ∈ CAREER_DISCOVERY_QUESTIONS, ∀ opt ∈ q.options,
        (opt.relatedRoles ≠ none → q.id = "primary_interest")
        ∧ (q.id = "primary_interest" → opt.boosts = none ∧ opt.relatedRoles ≠ none))
    ∧ weightFor "primary_interest" = 50 := by
  refine ⟨?_, pairwise_sortByScoreDesc _, by decide, by decide⟩
  intro p hp
  have hraw : p ∈ responses.foldl processResponse [] :=
    (sortByScoreDesc_perm _).mem_iff.mp hp
  have hnd : (roleKeys (responses.foldl processResponse [])).Nodup :=
    nodup_roleKeys_foldl responses [] (by simp [roleKeys])
  have := entry_eq_roleScoreIn _ hnd p hraw
  rw [this, roleScoreIn_foldl]
  simp [roleScoreIn]

/-- C8 witness: answering `primary_interest = ai_ml` gives AI Specialist
the full `primary_interest` weight of 50. -/
theorem calculate_role_scores_spec_witness :
    totalScore [("primary_interest", "ai_ml")] "AI Specialist" = ((50 : ℕ) : ℚ) := by
  have hm : (("AI Specialist", ((50 : ℕ) : ℚ))) ∈
      calculate_role_scores [("primary_interest", "ai_ml")] := by decide
  have h := (calculate_role_scores_spec [("primary_interest", "ai_ml")]).1
    ("AI Specialist", ((50 : ℕ) : ℚ)) hm
  exact h.symm

/-- C10: `calculate_role_scores` is total on arbitrary responses: an entry
whose question id matches no quiz question, or whose answer value matches
no option of its question, leaves the accumulator untouched and
contributes `0` to every role, and a responses map with no recognized
entry yields `[]`. -/
theorem calculate_role_scores_total (responses : List (String × String)) :
    (∀ (m : List (String × ℚ)) (e : String × String),
        recognizedResponse e = false → processResponse m e = m)
    ∧ (∀ (e : String × String) (role : String),
        recognizedResponse e = false → responseContribution e role = 0)
    ∧ ((∀ e ∈ responses, recognizedResponse e = false) →
        calculate_role_scores responses = []) := by
  have hskip : ∀ (m : List (String × ℚ)) (e : String × String),
      recognizedResponse e = false → processResponse m e = m := by
    intro m e h
    rcases hq : get_question_by_id e.1 with _ | q
    · simp [processResponse, hq]
    · rcases hf : q.options.find? (fun o => o.value == e.2) with _ | opt
      · simp [processResponse, hq, hf]
      · simp [recognizedResponse, hq, hf] at h
  refine ⟨hskip, ?_, ?_⟩
  · intro e role h
    rcases hq : get_question_by_id e.1 with _ | q
    · simp [responseContribution, hq]
    · rcases hf : q.options.find? (fun o => o.value == e.2) with _ | opt
      · simp [responseContribution, hq, hf]
      · simp [recognizedResponse, hq, hf] at h
  · intro hall
    have hraw : ∀ rs : List (String × String), (∀ e ∈ rs, recognizedResponse e = false) →
        rs.foldl processResponse [] = ([] : List (String × ℚ)) := by
      intro rs
      induction rs with
      | nil => intro _; rfl
      | cons e rest ih =>
        intro h
        show rest.foldl processResponse (processResponse [] e) = []
        rw [hskip [] e (h e (List.mem_cons_self e rest))]
        exact ih fun e' he' => h e' (List.mem_cons_of_mem e he')
    rw [calculate_role_scores, hraw responses hall]
    rfl

/-- C10 witness: a bogus question id and a bogus answer value produce the
empty recommendation list. -/
theorem calculate_role_scores_total_witness :
    calculate_role_scores [("bogus", "x"), ("work_style", "nope")] = [] :=
  (calculate_role_scores_total [("bogus", "x"), ("work_style", "nope")]).2.2 (by decide)

theorem pairCountIn_bumpPair (k k' : ℕ × ℕ) :
    ∀ m : List ((ℕ × ℕ) × ℕ),
      pairCountIn (bumpPair m k) k' = pairCountIn m k' + if k = k' then 1 else 0
  | [] => by
    simp only [bumpPair, pairCountIn]
    by_cases h : k = k' <;> simp [h]
  | (kk, c) :: rest => by
    by_cases hk : kk = k
    · subst hk
      simp only [bumpPair, if_pos rfl]
      by_cases h : kk = k' <;> simp [pairCountIn, h]
    · have ih := pairCountIn_bumpPair k k' rest
      simp only [bumpPair, if_neg hk]
      by_cases h : kk = k'
      · have hkk' : ¬ (k = k') := fun hh => hk (h.trans hh.symm)
        simp [pairCountIn, h, hkk']
      · simp [pairCountIn, h, ih]

theorem pairKeys_bumpPair (k : ℕ × ℕ) :
    ∀ m : List ((ℕ × ℕ) × ℕ),
      pairKeys (bumpPair m k)
        = if k ∈ pairKeys m then pairKeys m else pairKeys m ++ [k]
  | [] => by simp [bumpPair, pairKeys]
  | (kk, c) :: rest => by
    have ih := pairKeys_bumpPair k rest
    by_cases hk : kk = k
    · subst hk
      simp [bumpPair, pairKeys]
    · have hne : ¬ (k = kk) := fun h => hk h.symm
      have hb : bumpPair ((kk, c) :: rest) k = (kk, c) :: bumpPair rest k := by
        simp [bumpPair, hk]
      simp only [pairKeys] at ih ⊢
      rw [hb, List.map_cons, List.map_cons, ih]
      simp only [List.mem_cons, hne, false_or]
      by_cases hm : k ∈ rest.map Prod.fst
      · simp [hm]
      · simp [hm]

theorem nodup_pairKeys_bumpPair (k : ℕ × ℕ) (m : List ((ℕ × ℕ) × ℕ))
    (h : (pairKeys m).Nodup) : (pairKeys (bumpPair m k)).Nodup := by
  rw [pairKeys_bumpPair]
  by_cases hm : k ∈ pairKeys m
  · simpa [hm] using h
  · simp only [hm, if_false]
    simpa [List.nodup_append] using ⟨h, hm⟩

theorem mem_pairKeys_bumpPair (k k' : ℕ × ℕ) (m : List ((ℕ × ℕ) × ℕ)) :
    k' ∈ pairKeys (bumpPair m k) ↔ k' ∈ pairKeys m ∨ k' = k := by
  rw [pairKeys_bumpPair]
  by_cases hm : k ∈ pairKeys m
  · simp only [if_pos hm]
    constructor
    · exact Or.inl
    · rintro (h | rfl)
      · exact h
      · exact hm
  · simp [hm]

theorem pairCountIn_foldl_bumpPair (k : ℕ × ℕ) :
    ∀ (ps : List (ℕ × ℕ)) (m : List ((ℕ × ℕ) × ℕ)),
      pairCountIn (ps.foldl bumpPair m) k = pairCountIn m k + ps.count k
  | [], m => by simp
  | p :: rest, m => by
    show pairCountIn (rest.foldl bumpPair (bumpPair m p)) k = _
    rw [pairCountIn_foldl_bumpPair k rest (bumpPair m p), pairCountIn_bumpPair p k m,
      List.count_cons]
    by_cases h : p = k <;> simp [h] <;> omega

theorem nodup_pairKeys_foldl_bumpPair :
    ∀ (ps : List (ℕ × ℕ)) (m : List ((ℕ × ℕ) × ℕ)),
      (pairKeys m).Nodup → (pairKeys (ps.foldl bumpPair m)).Nodup
  | [], _, h => h
  | p :: rest, m, h =>
    nodup_pairKeys_foldl_bumpPair rest (bumpPair m p) (nodup_pairKeys_bumpPair p m h)

theorem mem_pairKeys_foldl_bumpPair (k : ℕ × ℕ) :
    ∀ (ps : List (ℕ × ℕ)) (m : List ((ℕ × ℕ) × ℕ)),
      k ∈ pairKeys (ps.foldl bumpPair m) ↔ k ∈ pairKeys m ∨ k ∈ ps
  | [], m => by simp
  | p :: rest, m => by
    show k ∈ pairKeys (rest.foldl bumpPair (bumpPair m p)) ↔ _
    rw [mem_pairKeys_foldl_bumpPair k rest (bumpPair m p), mem_pairKeys_bumpPair]
    simp only [List.mem_cons]
    tauto

theorem pairCountIn_jobsFold (k : ℕ × ℕ) :
    ∀ (js : List JobPosting) (m : List ((ℕ × ℕ) × ℕ)),
      pairCountIn (js.foldl (fun acc job => (jobPairs job.skillIds).foldl bumpPair acc) m) k
        = pairCountIn m k + (js.map fun j => (jobPairs j.skillIds).count k).sum
  | [], m => by simp
  | j :: rest, m => by
    show pairCountIn
        (rest.foldl (fun acc job => (jobPairs job.skillIds).foldl bumpPair acc)
          ((jobPairs j.skillIds).foldl bumpPair m)) k = _
    rw [pairCountIn_jobsFold k rest ((jobPairs j.skillIds).foldl bumpPair m),
      pairCountIn_foldl_bumpPair]
    simp
    omega

theorem nodup_pairKeys_jobsFold :
    ∀ (js : List JobPosting) (m : List ((ℕ × ℕ) × ℕ)),
      (pairKeys m).Nodup →
      (pairKeys (js.foldl (fun acc job => (jobPairs job.skillIds).foldl bumpPair acc) m)).Nodup
  | [], _, h => h
  | j :: rest, m, h =>
    nodup_pairKeys_jobsFold rest ((jobPairs j.skillIds).foldl bumpPair m)
      (nodup_pairKeys_foldl_bumpPair (jobPairs j.skillIds) m h)

theorem mem_pairKeys_jobsFold (k : ℕ × ℕ) :
    ∀ (js : List JobPosting) (m : List ((ℕ × ℕ) × ℕ)),
      k ∈ pairKeys (js.foldl (fun acc job => (jobPairs job.skillIds).foldl bumpPair acc) m)
        ↔ k ∈ pairKeys m ∨ ∃ j ∈ js, k ∈ jobPairs j.skillIds
  | [], m => by simp
  | j :: rest, m => by
    show k ∈ pairKeys
        (rest.foldl (fun acc job => (jobPairs job.skillIds).foldl bumpPair acc)
          ((jobPairs j.skillIds).foldl bumpPair m)) ↔ _
    rw [mem_pairKeys_jobsFold k rest ((jobPairs j.skillIds).foldl bumpPair m),
      mem_pairKeys_foldl_bumpPair]
    simp only [List.mem_cons]
    constructor
    · rintro ((hm | hj) | ⟨j', hj', hk⟩)
      · exact Or.inl hm
      · exact Or.inr ⟨j, Or.inl rfl, hj⟩
      · exact Or.inr ⟨j', Or.inr hj', hk⟩
    · rintro (hm | ⟨j', hj' | hj', hk⟩)
      · exact Or.inl (Or.inl hm)
      · exact Or.inl (Or.inr (hj' ▸ hk))
      · exact Or.inr ⟨j', hj', hk⟩

theorem pairCountIn_combinationCounts (jobs : List JobPosting) (k : ℕ × ℕ) :
    pairCountIn (combinationCounts jobs) k = pairOccurrences jobs k := by
  rw [combinationCounts, pairCountIn_jobsFold]
  simp [pairCountIn, pairOccurrences]

theorem nodup_pairKeys_combinationCounts (jobs : List JobPosting) :
    (pairKeys (combinationCounts jobs)).Nodup :=
  nodup_pairKeys_jobsFold _ [] (by simp [pairKeys])

theorem mem_pairKeys_combinationCounts (jobs : List JobPosting) (k : ℕ × ℕ) :
    k ∈ pairKeys (combinationCounts jobs)
      ↔ ∃ j ∈ jobs.filter JobPosting.isActive, k ∈ jobPairs j.skillIds := by
  rw [combinationCounts, mem_pairKeys_jobsFold]
  simp [pairKeys]

theorem entry_eq_pairCountIn :
    ∀ m : List ((ℕ × ℕ) × ℕ), (pairKeys m).Nodup →
      ∀ kc ∈ m, kc.2 = pairCountIn m kc.1
  | [], _, kc, hkc => by simp at hkc
  | (kk, c) :: rest, hnd, kc, hkc => by
    have hnd' : kk ∉ pairKeys rest ∧ (pairKeys rest).Nodup := by
      have : (kk :: pairKeys rest).Nodup := by simpa [pairKeys] using hnd
      exact List.nodup_cons.mp this
    rcases List.mem_cons.mp hkc with heq | hmem
    · subst heq
      simp [pairCountIn]
    · have hne : kk ≠ kc.1 := by
        intro h
        apply hnd'.1
        rw [h]
        exact List.mem_map.mpr ⟨kc, hmem, rfl⟩
      have := entry_eq_pairCountIn rest hnd'.2 kc hmem
      simpa [pairCountIn, hne] using this

theorem jobPairs_fst_lt_snd :
    ∀ skills : List ℕ, skills.Nodup → ∀ k ∈ jobPairs skills, k.1 < k.2
  | [], _, k, hk => by simp [jobPairs] at hk
  | x :: rest, hnd, k, hk => by
    rcases List.nodup_cons.mp hnd with ⟨hx, hndr⟩
    rw [jobPairs] at hk
    rcases List.mem_append.mp hk with hmap | hrec
    · rcases List.mem_map.mp hmap with ⟨y, hy, rfl⟩
      have hxy : x ≠ y := fun h => hx (h ▸ hy)
      simp only
      omega
    · exact jobPairs_fst_lt_snd rest hndr k hrec

theorem count_map_key {α β : Type} [BEq β] (f : α → β) (k : β) :
    ∀ l : List α, (l.map f).count k = l.countP fun y => f y == k
  | [] => rfl
  | y :: rest => by
    simp [List.count_cons, List.countP_cons, count_map_key f k rest]

theorem count_nodup {α : Type} [DecidableEq α] (l : List α) (a : α) (h : l.Nodup) :
    l.count a = if a ∈ l then 1 else 0 := by
  by_cases hm : a ∈ l
  · rw [if_pos hm]
    have h1 := List.nodup_iff_count_le_one.mp h a
    have h2 := List.count_pos_iff.mpr hm
    omega
  · rw [if_neg hm]
    exact List.count_eq_zero.mpr hm

theorem count_jobPairs_pair (a b : ℕ) (hab : a ≠ b) :
    ∀ skills : List ℕ, skills.Nodup →
      (jobPairs skills).count (min a b, max a b)
        = if a ∈ skills ∧ b ∈ skills then 1 else 0
  | [], _ => by simp [jobPairs, hab]
  | x :: rest, hnd => by
    rcases List.nodup_cons.mp hnd with ⟨hx, hndr⟩
    have ih := count_jobPairs_pair a b hab rest hndr
    rw [jobPairs, List.count_append, count_map_key, ih]
    by_cases hxa : x = a
    · subst hxa
      have hcp : (rest.countP fun y => ((min x y, max x y) == (min x b, max x b)))
          = rest.count b := by
        rw [List.count_eq_countP]
        apply List.countP_congr
        intro y hy
        have hyx : y ≠ x := fun h => hx (h ▸ hy)
        simp only [beq_iff_eq, Prod.mk.injEq, decide_eq_true_eq]
        omega
      rw [hcp, count_nodup rest b hndr]
      have hna : ¬ (x ∈ rest ∧ b ∈ rest) := fun h => hx h.1
      have hbx : b ≠ x := fun h => hab h.symm
      by_cases hbr : b ∈ rest <;>
        simp [hbr, hna, List.mem_cons, hbx, hx]
    · by_cases hxb : x = b
      · subst hxb
        have hcp : (rest.countP fun y => ((min x y, max x y) == (min a x, max a x)))
            = rest.count a := by
          rw [List.count_eq_countP]
          apply List.countP_congr
          intro y hy
          have hyx : y ≠ x := fun h => hx (h ▸ hy)
          simp only [beq_iff_eq, Prod.mk.injEq, decide_eq_true_eq]
          omega
        rw [hcp, count_nodup rest a hndr]
        have hnb : ¬ (a ∈ rest ∧ x ∈ rest) := fun h => hx h.2
        by_cases har : a ∈ rest <;>
          simp [har, hnb, List.mem_cons, hab, hx]
      · have hcp : (rest.countP fun y => ((min x y, max x y) == (min a b, max a b))) = 0 := by
          apply List.countP_eq_zero.mpr
          intro y hy
          simp only [beq_iff_eq, Prod.mk.injEq, decide_eq_true_eq]
          omega
        rw [hcp]
        have hax : a ≠ x := fun h => hxa h.symm
        have hbx : b ≠ x := fun h => hxb h.symm
        simp [List.mem_cons, hax, hbx]

theorem sum_count_eq_filter_length (a b : ℕ) (hab : a ≠ b) :
    ∀ js : List JobPosting, (∀ j ∈ js, j.skillIds.Nodup) →
      (js.map fun j => (jobPairs j.skillIds).count (min a b, max a b)).sum
        = (js.filter fun j => j.skillIds.contains a && j.skillIds.contains b).length
  | [], _ => rfl
  | j :: rest, h => by
    have ihr := sum_count_eq_filter_length a b hab rest
      (fun j' hj' => h j' (List.mem_cons_of_mem _ hj'))
    have hj := h j (List.mem_cons_self j rest)
    rw [List.map_cons, List.sum_cons, count_jobPairs_pair a b hab _ hj, List.filter_cons, ihr]
    by_cases hca : a ∈ j.skillIds <;> by_cases hcb : b ∈ j.skillIds <;>
      simp [hca, hcb, List.contains, List.elem_iff] <;> omega

theorem pairOccurrences_eq_activeJobsWithBoth (jobs : List JobPosting)
    (hnd : ∀ j ∈ jobs, j.skillIds.Nodup) (a b : ℕ) (hab : a ≠ b) :
    pairOccurrences jobs (min a b, max a b) = activeJobsWithBoth jobs a b := by
  rw [pairOccurrences, activeJobsWithBoth]
  exact sum_count_eq_filter_length a b hab _
    (fun j hj => hnd j (List.mem_of_mem_filter hj))

theorem countP_contains_le_refCount (s : ℕ) :
    ∀ jobs : List JobPosting,
      (jobs.countP fun j => j.skillIds.contains s) ≤ jobSkillRefCount jobs s
  | [] => by simp [jobSkillRefCount]
  | j :: rest => by
    have ih := countP_contains_le_refCount s rest
    have hrc : jobSkillRefCount (j :: rest) s
        = j.skillIds.count s + jobSkillRefCount rest s := by
      simp [jobSkillRefCount]
    rw [List.countP_cons, hrc]
    by_cases hc : j.skillIds.contains s = true
    · have hmem : s ∈ j.skillIds := by simpa [List.contains, List.elem_iff] using hc
      have hpos := List.count_pos_iff.mpr hmem
      rw [if_pos hc]
      omega
    · rw [if_neg hc]
      omega

theorem activeJobsWithBoth_le_refCount (a b : ℕ) (jobs : List JobPosting) :
    activeJobsWithBoth jobs a b ≤ jobSkillRefCount jobs a
    ∧ activeJobsWithBoth jobs a b ≤ jobSkillRefCount jobs b := by
  have hgen : ∀ s : ℕ,
      (∀ j : JobPosting, (j.skillIds.contains a && j.skillIds.contains b) = true →
        j.skillIds.contains s = true) →
      activeJobsWithBoth jobs a b ≤ jobSkillRefCount jobs s := by
    intro s hs
    have hsub : ((jobs.filter JobPosting.isActive).filter
        (fun j => j.skillIds.contains a && j.skillIds.contains b)).Sublist jobs :=
      (List.filter_sublist _).trans (List.filter_sublist _)
    have hall : ∀ j ∈ (jobs.filter JobPosting.isActive).filter
        (fun j => j.skillIds.contains a && j.skillIds.contains b),
        (fun j : JobPosting => j.skillIds.contains s) j = true := by
      intro j hj
      have h1 := (List.mem_filter.mp hj).2
      exact hs j h1
    have hlen : activeJobsWithBoth jobs a b
        = ((jobs.filter JobPosting.isActive).filter
            (fun j => j.skillIds.contains a && j.skillIds.contains b)).countP
            (fun j => j.skillIds.contains s) := by
      rw [activeJobsWithBoth]
      exact ((List.countP_eq_length).mpr hall).symm
    rw [hlen]
    exact le_trans (List.Sublist.countP_le _ hsub) (countP_contains_le_refCount s jobs)
  constructor
  · refine hgen a fun j h => ?_
    rw [Bool.and_eq_true] at h
    exact h.1
  · refine hgen b fun j h => ?_
    rw [Bool.and_eq_true] at h
    exact h.2

theorem rows_filter_len_zero (g : (ℕ × ℕ) → ℕ → SkillCombinationRow)
    (hg : ∀ k c, (g k c).skill1 = k.1 ∧ (g k c).skill2 = k.2) (k : ℕ × ℕ) :
    ∀ m : List ((ℕ × ℕ) × ℕ), k ∉ pairKeys m →
      ((m.filterMap fun kc => if 2 ≤ kc.2 then some (g kc.1 kc.2) else none).filter
          fun r => r.skill1 == k.1 && r.skill2 == k.2).length = 0
  | [], _ => rfl
  | (kk, c) :: rest, hk => by
    have hkk : kk ≠ k := by
      intro h
      exact hk (by simp [pairKeys, h])
    have hkrest : k ∉ pairKeys rest := by
      intro h
      apply hk
      simp only [pairKeys, List.map_cons, List.mem_cons]
      right
      simpa [pairKeys] using h
    have ih := rows_filter_len_zero g hg k rest hkrest
    rw [List.filterMap_cons]
    by_cases hc : 2 ≤ c
    · simp only [if_pos hc]
      rw [List.filter_cons]
      have hpred : ((g (kk, c).1 (kk, c).2).skill1 == k.1
          && (g (kk, c).1 (kk, c).2).skill2 == k.2) = false := by
        have h1 := (hg (kk, c).1 (kk, c).2).1
        have h2 := (hg (kk, c).1 (kk, c).2).2
        rw [Bool.and_eq_false_iff]
        by_cases he1 : kk.1 = k.1
        · right
          rw [beq_eq_false_iff_ne, h2]
          intro he2
          exact hkk (Prod.ext he1 he2)
        · left
          rw [beq_eq_false_iff_ne, h1]
          exact he1
      rw [hpred]
      simpa using ih
    · simp only [if_neg hc]
      exact ih

theorem rows_filter_len (g : (ℕ × ℕ) → ℕ → SkillCombinationRow)
    (hg : ∀ k c, (g k c).skill1 = k.1 ∧ (g k c).skill2 = k.2) (k : ℕ × ℕ) :
    ∀ m : List ((ℕ × ℕ) × ℕ), (pairKeys m).Nodup →
      ((m.filterMap fun kc => if 2 ≤ kc.2 then some (g kc.1 kc.2) else none).filter
          fun r => r.skill1 == k.1 && r.skill2 == k.2).length
        = if k ∈ pairKeys m ∧ 2 ≤ pairCountIn m k then 1 else 0
  | [], _ => by simp [pairKeys, pairCountIn]
  | (kk, c) :: rest, hnd => by
    have hnd' : kk ∉ pairKeys rest ∧ (pairKeys rest).Nodup := by
      have : (kk :: pairKeys rest).Nodup := by simpa [pairKeys] using hnd
      exact List.nodup_cons.mp this
    rw [List.filterMap_cons]
    by_cases hkk : kk = k
    · subst hkk
      have hcnt : pairCountIn ((kk, c) :: rest) kk = c := by simp [pairCountIn]
      have hmem : kk ∈ pairKeys ((kk, c) :: rest) := by simp [pairKeys]
      by_cases hc : 2 ≤ c
      · simp only [if_pos hc]
        rw [List.filter_cons]
        have hpred : ((g (kk, c).1 (kk, c).2).skill1 == kk.1
            && (g (kk, c).1 (kk, c).2).skill2 == kk.2) = true := by
          have h1 := (hg (kk, c).1 (kk, c).2).1
          have h2 := (hg (kk, c).1 (kk, c).2).2
          rw [Bool.and_eq_true, beq_iff_eq, beq_iff_eq]
          exact ⟨h1, h2⟩
        rw [hpred]
        have hz := rows_filter_len_zero g hg kk rest hnd'.1
        simp [hz, hmem, hcnt, hc]
      · simp only [if_neg hc]
        have hz := rows_filter_len_zero g hg kk rest hnd'.1
        rw [hz, if_neg]
        intro hcontra
        rw [hcnt] at hcontra
        exact hc hcontra.2
    · have hcnt : pairCountIn ((kk, c) :: rest) k = pairCountIn rest k := by
        simp [pairCountIn, hkk]
      have hmem : (k ∈ pairKeys ((kk, c) :: rest)) ↔ k ∈ pairKeys rest := by
        simp only [pairKeys, List.map_cons, List.mem_cons]
        constructor
        · rintro (h | h)
          · exact absurd h.symm hkk
          · simpa [pairKeys] using h
        · intro h
          right
          simpa [pairKeys] using h
      have ih := rows_filter_len g hg k rest hnd'.2
      by_cases hc : 2 ≤ c
      · simp only [if_pos hc]
        rw [List.filter_cons]
        have hpred : ((g (kk, c).1 (kk, c).2).skill1 == k.1
            && (g (kk, c).1 (kk, c).2).skill2 == k.2) = false := by
          have h1 := (hg (kk, c).1 (kk, c).2).1
          have h2 := (hg (kk, c).1 (kk, c).2).2
          rw [Bool.and_eq_false_iff]
          by_cases he1 : kk.1 = k.1
          · right
            rw [beq_eq_false_iff_ne, h2]
            intro he2
            exact hkk (Prod.ext he1 he2)
          · left
            rw [beq_eq_false_iff_ne, h1]
            exact he1
        rw [hpred]
        simp only [Bool.false_eq_true, if_false]
        rw [ih, hcnt]
        by_cases hm : k ∈ pairKeys rest ∧ 2 ≤ pairCountIn rest k
        · rw [if_pos hm, if_pos ⟨hmem.mpr hm.1, hm.2⟩]
        · rw [if_neg hm, if_neg]
          intro hcontra
          exact hm ⟨hmem.mp hcontra.1, hcontra.2⟩
      · simp only [if_neg hc]
        rw [ih, hcnt]
        by_cases hm : k ∈ pairKeys rest ∧ 2 ≤ pairCountIn rest k
        · rw [if_pos hm, if_pos ⟨hmem.mpr hm.1, hm.2⟩]
        · rw [if_neg hm, if_neg]
          intro hcontra
          exact hm ⟨hmem.mp hcontra.1, hcontra.2⟩

theorem mem_pairKeys_iff_pos_occurrences (jobs : List JobPosting) (k : ℕ × ℕ) :
    k ∈ pairKeys (combinationCounts jobs) ↔ 0 < pairOccurrences jobs k := by
  rw [mem_pairKeys_combinationCounts, pairOccurrences]
  constructor
  · rintro ⟨j, hj, hk⟩
    have hpos : 0 < (jobPairs j.skillIds).count k := List.count_pos_iff.mpr hk
    have hmem : (jobPairs j.skillIds).count k ∈
        (jobs.filter JobPosting.isActive).map fun j => (jobPairs j.skillIds).count k :=
      List.mem_map.mpr ⟨j, hj, rfl⟩
    calc (0 : ℕ) < (jobPairs j.skillIds).count k := hpos
      _ ≤ _ := List.single_le_sum (fun _ _ => Nat.zero_le _) _ hmem
  · intro hpos
    by_contra hno
    push_neg at hno
    have hall : ∀ x ∈ (jobs.filter JobPosting.isActive).map
        (fun j => (jobPairs j.skillIds).count k), x = 0 := by
      intro x hx
      rcases List.mem_map.mp hx with ⟨j, hj, rfl⟩
      exact List.count_eq_zero.mpr (hno j hj)
    rw [List.sum_eq_zero_iff.mpr hall] at hpos
    exact lt_irrefl 0 hpos

theorem row_of_mem_calculate_combinations (jobs : List JobPosting)
    {r : SkillCombinationRow} (hr : r ∈ calculate_combinations jobs) :
    ∃ kc ∈ combinationCounts jobs,
      r.skill1 = kc.1.1 ∧ r.skill2 = kc.1.2 ∧ r.coOccurrenceCount = kc.2 ∧ 2 ≤ kc.2
      ∧ r.correlationScore =
        (if 0 < jobSkillRefCount jobs kc.1.1 ∧ 0 < jobSkillRefCount jobs kc.1.2 then
          (kc.2 : ℚ) /
            ((jobSkillRefCount jobs kc.1.1 : ℚ) + (jobSkillRefCount jobs kc.1.2 : ℚ)
              - (kc.2 : ℚ))
        else 0) := by
  rcases List.mem_filterMap.mp hr with ⟨kc, hkc, heq⟩
  by_cases hc : 2 ≤ kc.2
  · rw [if_pos hc] at heq
    have hr' := (Option.some_inj.mp heq).symm
    refine ⟨kc, hkc, ?_⟩
    rw [hr']
    exact ⟨rfl, rfl, rfl, hc, rfl⟩
  · rw [if_neg hc] at heq
    cases heq

/-- C4: after `calculate_combinations`, for any two distinct skills the
table holds exactly one row keyed `(min, max)` when they co-occur in at
least 2 active job postings and none otherwise; every row is normalized
(`skill_1 < skill_2`); and rerunning on unchanged job data reproduces the
same table (the old rows are deleted first, so the result is a pure
function of the job data). -/
theorem skill_combination_rows_spec (jobs : List JobPosting)
    (hnd : ∀ j ∈ jobs, j.skillIds.Nodup) :
    (∀ a b : ℕ, a ≠ b →
      ((calculate_combinations jobs).filter fun r =>
          r.skill1 == min a b && r.skill2 == max a b).length
        = if 2 ≤ activeJobsWithBoth jobs a b then 1 else 0)
    ∧ (∀ r ∈ calculate_combinations jobs, r.skill1 < r.skill2)
    ∧ (∀ db : AnalyticsDB,
        (runCalculateCombinations (runCalculateCombinations db).1).1.combinations
          = (runCalculateCombinations db).1.combinations) := by
  refine ⟨?_, ?_, fun db => rfl⟩
  · intro a b hab
    have h := rows_filter_len (mkCombinationRow jobs) (fun k c => ⟨rfl, rfl⟩)
      (min a b, max a b) (combinationCounts jobs) (nodup_pairKeys_combinationCounts jobs)
    have hcnt : pairCountIn (combinationCounts jobs) (min a b, max a b)
        = activeJobsWithBoth jobs a b := by
      rw [pairCountIn_combinationCounts]
      exact pairOccurrences_eq_activeJobsWithBoth jobs hnd a b hab
    have hre : calculate_combinations jobs
        = (combinationCounts jobs).filterMap
            (fun kc => if 2 ≤ kc.2 then some (mkCombinationRow jobs kc.1 kc.2) else none) := rfl
    rw [hre, h, hcnt]
    by_cases hco : 2 ≤ activeJobsWithBoth jobs a b
    · rw [if_pos hco, if_pos]
      refine ⟨?_, hco⟩
      rw [mem_pairKeys_iff_pos_occurrences, pairOccurrences_eq_activeJobsWithBoth jobs hnd a b hab]
      omega
    · rw [if_neg hco, if_neg]
      intro hcontra
      exact hco hcontra.2
  · intro r hr
    rcases row_of_mem_calculate_combinations jobs hr with ⟨kc, hkc, h1, h2, _, hc2, _⟩
    have hkey : kc.1 ∈ pairKeys (combinationCounts jobs) :=
      List.mem_map.mpr ⟨kc, hkc, rfl⟩
    rcases (mem_pairKeys_combinationCounts jobs kc.1).mp hkey with ⟨j, hj, hkp⟩
    have hjnd : j.skillIds.Nodup := hnd j (List.mem_of_mem_filter hj)
    have := jobPairs_fst_lt_snd j.skillIds hjnd kc.1 hkp
    rw [h1, h2]
    exact this

/-- C4 witness: two active jobs both listing skills 1 and 2 produce exactly
one row for the unordered pair `{1, 2}`. -/
theorem skill_combination_rows_spec_witness :
    ((calculate_combinations [⟨true, [1, 2]⟩, ⟨true, [1, 2]⟩]).filter fun r =>
        r.skill1 == min 2 1 && r.skill2 == max 2 1).length
      = if 2 ≤ activeJobsWithBoth [⟨true, [1, 2]⟩, ⟨true, [1, 2]⟩] 2 1 then 1 else 0 :=
  (skill_combination_rows_spec [⟨true, [1, 2]⟩, ⟨true, [1, 2]⟩] (by decide)).1 2 1 (by decide)

/-- C5: every persisted `SkillCombination` row carries the Jaccard score
`co_occurrence / (jobs_with_skill_1 + jobs_with_skill_2 − co_occurrence)`
when both skills have at least one job reference and `0` when either has
none (the dead branch of the guard), and the score always lies in `[0, 1]`.
`jobs_with_skill` counts job-skill links of all jobs, active or not, as the
code's unfiltered `JobSkill` queryset does. -/
theorem skill_combination_jaccard (jobs : List JobPosting)
    (hnd : ∀ j ∈ jobs, j.skillIds.Nodup) :
    ∀ r ∈ calculate_combinations jobs,
      ((0 < jobSkillRefCount jobs r.skill1 ∧ 0 < jobSkillRefCount jobs r.skill2) →
        r.correlationScore = (r.coOccurrenceCount : ℚ) /
          ((jobSkillRefCount jobs r.skill1 : ℚ) + (jobSkillRefCount jobs r.skill2 : ℚ)
            - (r.coOccurrenceCount : ℚ)))
      ∧ ((jobSkillRefCount jobs r.skill1 = 0 ∨ jobSkillRefCount jobs r.skill2 = 0) →
          r.correlationScore = 0)
      ∧ 0 ≤ r.correlationScore ∧ r.correlationScore ≤ 1 := by
  intro r hr
  rcases row_of_mem_calculate_combinations jobs hr with ⟨kc, hkc, h1, h2, hco, hc2, hcorr⟩
  have hkey : kc.1 ∈ pairKeys (combinationCounts jobs) :=
    List.mem_map.mpr ⟨kc, hkc, rfl⟩
  rcases (mem_pairKeys_combinationCounts jobs kc.1).mp hkey with ⟨j, hj, hkp⟩
  have hjnd : j.skillIds.Nodup := hnd j (List.mem_of_mem_filter hj)
  have hlt : kc.1.1 < kc.1.2 := jobPairs_fst_lt_snd j.skillIds hjnd kc.1 hkp
  have hne : kc.1.1 ≠ kc.1.2 := Nat.ne_of_lt hlt
  have hval : kc.2 = activeJobsWithBoth jobs kc.1.1 kc.1.2 := by
    have hmin : min kc.1.1 kc.1.2 = kc.1.1 := min_eq_left hlt.le
    have hmax : max kc.1.1 kc.1.2 = kc.1.2 := max_eq_right hlt.le
    have he := entry_eq_pairCountIn (combinationCounts jobs)
      (nodup_pairKeys_combinationCounts jobs) kc hkc
    rw [he, pairCountIn_combinationCounts]
    have := pairOccurrences_eq_activeJobsWithBoth jobs hnd kc.1.1 kc.1.2 hne
    rw [hmin, hmax] at this
    simpa using this
  have hble := activeJobsWithBoth_le_refCount kc.1.1 kc.1.2 jobs
  have hb1 : kc.2 ≤ jobSkillRefCount jobs kc.1.1 := hval ▸ hble.1
  have hb2 : kc.2 ≤ jobSkillRefCount jobs kc.1.2 := hval ▸ hble.2
  have hpos1 : 0 < jobSkillRefCount jobs kc.1.1 := by omega
  have hpos2 : 0 < jobSkillRefCount jobs kc.1.2 := by omega
  have hcorr' : r.correlationScore = (kc.2 : ℚ) /
      ((jobSkillRefCount jobs kc.1.1 : ℚ) + (jobSkillRefCount jobs kc.1.2 : ℚ) - (kc.2 : ℚ)) := by
    rw [hcorr, if_pos ⟨hpos1, hpos2⟩]
  have hdenpos : (0 : ℚ) <
      (jobSkillRefCount jobs kc.1.1 : ℚ) + (jobSkillRefCount jobs kc.1.2 : ℚ) - (kc.2 : ℚ) := by
    have c1 : (kc.2 : ℚ) ≤ (jobSkillRefCount jobs kc.1.1 : ℚ) := by exact_mod_cast hb1
    have c2 : (2 : ℚ) ≤ (kc.2 : ℚ) := by exact_mod_cast hc2
    have c3 : (0 : ℚ) < (jobSkillRefCount jobs kc.1.2 : ℚ) := by exact_mod_cast hpos2
    linarith
  refine ⟨fun _ => by rw [hcorr', h1, h2, hco], ?_, ?_, ?_⟩
  · intro h0
    exfalso
    rw [h1, h2] at h0
    rcases h0 with h0 | h0 <;> omega
  · rw [hcorr']
    apply div_nonneg
    · positivity
    · linarith
  · rw [hcorr']
    rw [div_le_one hdenpos]
    have c1 : (kc.2 : ℚ) ≤ (jobSkillRefCount jobs kc.1.1 : ℚ) := by exact_mod_cast hb1
    have c2 : (kc.2 : ℚ) ≤ (jobSkillRefCount jobs kc.1.2 : ℚ) := by exact_mod_cast hb2
    linarith

/-- C5 witness: the pair `{1, 2}` in two active jobs gets Jaccard score
`2 / (2 + 2 − 2) = 1`, inside `[0, 1]`. -/
theorem skill_combination_jaccard_witness :
    0 ≤ (⟨1, 2, 2, (1 : ℚ)⟩ : SkillCombinationRow).correlationScore
    ∧ (⟨1, 2, 2, (1 : ℚ)⟩ : SkillCombinationRow).correlationScore ≤ 1 := by
  have hm : (⟨1, 2, 2, (1 : ℚ)⟩ : SkillCombinationRow)
      ∈ calculate_combinations [⟨true, [1, 2]⟩, ⟨true, [1, 2]⟩] := by
    refine List.mem_filterMap.mpr ⟨((1, 2), 2), by decide, ?_⟩
    norm_num [jobSkillRefCount]
  have h := skill_combination_jaccard [⟨true, [1, 2]⟩, ⟨true, [1, 2]⟩] (by decide) _ hm
  exact ⟨h.2.2.1, h.2.2.2⟩

end SkillBridge
